import Mathlib

set_option linter.unusedSectionVars false

/-!
Verification of the compile-time rank sort from `sort.hpp`.

The C++ routine `sort<N>(list)` computes, for each index `i < N`, a rank

  rank[i] = sort_rank_l(i) + sort_rank_u(i)

where `sort_rank_l` counts the earlier indices `j < i` with `list[i] >= list[j]`
and `sort_rank_u` counts the later indices `1+i+j` (for `j < N-i-1`) with
`list[i] > list[1+i+j]`, and then scatters the input into a value-initialized
output array of length `N` via `response[rank[i]] = list[i]`, left to right.

The input is modelled as a function `Nat → α` (the code only requires
`operator[]`); the value-initialized output array is modelled as
`List.replicate N default`.  A second model (`sort_implo`) indexes an actual
`List α` through `Option`-returning access, and a third (`sort_st`) threads
the pair (input, response) through the scatter fold to express that the
input component is never written.
-/

namespace CTSort

variable {α : Type*} [LinearOrder α] [Inhabited α]

/-- Lower triangular portion of rank: counts `j ∈ {0, ..., i-1}` with
`list[i] >= list[j]`.  Embeds `sort_rank_l` from `sort.hpp`. -/
def sort_rank_l (list : Nat → α) (i : Nat) : Nat :=
  ∑ j ∈ Finset.range i, (if list i ≥ list j then 1 else 0)

/-- Upper triangular portion of rank: counts `j ∈ {0, ..., N-i-2}` with
`list[i] > list[1+i+j]`.  Embeds `sort_rank_u` from `sort.hpp`. -/
def sort_rank_u (N : Nat) (list : Nat → α) (i : Nat) : Nat :=
  ∑ j ∈ Finset.range (N - i - 1), (if list i > list (1 + i + j) then 1 else 0)

/-- The entry `rank[i]` of the rank array of `sort_impl` in `sort.hpp`.
The C++ code materializes the whole array before the scatter; since the
input is never mutated each entry is the pure function below. -/
def rank (N : Nat) (list : Nat → α) (i : Nat) : Nat :=
  sort_rank_l list i + sort_rank_u N list i

/-- The scatter step of `sort_impl`: starting from the value-initialized
output `array<Atom<T>, N> response = {}`, perform
`response[rank[I]] = list[I]` for `I = 0, ..., N-1` in order. -/
def sort_impl (N : Nat) (list : Nat → α) : List α :=
  (List.range N).foldl (fun response i => response.set (rank N list i) (list i))
    (List.replicate N default)

/-- Entry point `sort<N>(list)` from `sort.hpp`. -/
def sort (N : Nat) (list : Nat → α) : List α :=
  sort_impl N list

/-- The strict lexicographic order on indices induced by the values:
`j` precedes `i` when its value is smaller, or the values are equal and
`j` comes first.  `rank N list i` counts the indices below `N` that
precede `i` in this order. -/
def keyLt (list : Nat → α) (j i : Nat) : Prop :=
  list j < list i ∨ (list j = list i ∧ j < i)

instance keyLtDecidable (list : Nat → α) (j i : Nat) : Decidable (keyLt list j i) :=
  inferInstanceAs (Decidable (list j < list i ∨ (list j = list i ∧ j < i)))

/-- The inverse of the rank map on `{0, ..., N-1}`: the source index whose
rank is `d`.  Pure proof infrastructure, not part of the embedded code. -/
def rinv (N : Nat) (list : Nat → α) (d : Nat) : Nat :=
  (((List.range N).find? (fun i => rank N list i == d)).getD 0)

/-- `sort_rank_l` over an actual list, with every element access going
through the `Option`-returning indexing `xs[i]?`: any out-of-bounds
access makes the whole computation `none`. -/
def sort_rank_lo (xs : List α) (i : Nat) : Option Nat :=
  (List.range i).foldl
    (fun (acc : Option Nat) (j : Nat) =>
      acc.bind (fun b => (xs[i]?).bind (fun x => (xs[j]?).bind (fun y =>
        some (b + if x ≥ y then 1 else 0)))))
    (some 0)

/-- `sort_rank_u` over an actual list with `Option`-checked accesses. -/
def sort_rank_uo (N : Nat) (xs : List α) (i : Nat) : Option Nat :=
  (List.range (N - i - 1)).foldl
    (fun (acc : Option Nat) (j : Nat) =>
      acc.bind (fun b => (xs[i]?).bind (fun x => (xs[1 + i + j]?).bind (fun y =>
        some (b + if x > y then 1 else 0)))))
    (some 0)

/-- `rank` over an actual list with `Option`-checked accesses. -/
def ranko (N : Nat) (xs : List α) (i : Nat) : Option Nat :=
  (sort_rank_lo xs i).bind (fun l => (sort_rank_uo N xs i).bind (fun u =>
    some (l + u)))

/-- `sort_impl` over an actual list: all reads of the input and the
write `response[rank[I]] = list[I]` of the scatter step are
bounds-checked, yielding `none` on any out-of-range index. -/
def sort_implo (N : Nat) (xs : List α) : Option (List α) :=
  (List.range N).foldl
    (fun (acc : Option (List α)) (i : Nat) =>
      acc.bind (fun resp => (ranko N xs i).bind (fun r => (xs[i]?).bind (fun v =>
        if r < resp.length then some (resp.set r v) else none))))
    (some (List.replicate N default))

/-- The scatter fold as a transformation of the state
(input sequence, response): each step writes only the response
component, mirroring that `sort_impl` in `sort.hpp` assigns only to
`response` and merely reads `list`. -/
def sort_st (N : Nat) (xs : List α) : List α × List α :=
  (List.range N).foldl
    (fun st i =>
      (st.1, st.2.set (rank N (fun k => st.1.getD k default) i)
        (st.1.getD i default)))
    (xs, List.replicate N default)

lemma keyLt_trans {list : Nat → α} {a b c : Nat} (h1 : keyLt list a b)
    (h2 : keyLt list b c) : keyLt list a c := by
  rcases h1 with h1 | ⟨e1, l1⟩ <;> rcases h2 with h2 | ⟨e2, l2⟩
  · exact Or.inl (lt_trans h1 h2)
  · exact Or.inl (e2 ▸ h1)
  · exact Or.inl (e1 ▸ h2)
  · exact Or.inr ⟨e1.trans e2, lt_trans l1 l2⟩

lemma keyLt_irrefl (list : Nat → α) (i : Nat) : ¬ keyLt list i i := by
  rintro (h | ⟨_, h⟩) <;> exact lt_irrefl _ h

lemma keyLt_total (list : Nat → α) {i j : Nat} (hne : i ≠ j) :
    keyLt list i j ∨ keyLt list j i := by
  rcases lt_trichotomy (list i) (list j) with h | h | h
  · exact Or.inl (Or.inl h)
  · rcases Nat.lt_or_ge i j with hij | hij
    · exact Or.inl (Or.inr ⟨h, hij⟩)
    · exact Or.inr (Or.inr ⟨h.symm, lt_of_le_of_ne hij (Ne.symm hne)⟩)
  · exact Or.inr (Or.inl h)

/-- The upper pass, reindexed from offsets `j < N-i-1` to absolute
indices `k ∈ {i+1, ..., N-1}`. -/
lemma sort_rank_u_eq_Ico (N : Nat) (list : Nat → α) (i : Nat) :
    sort_rank_u N list i
      = ∑ k ∈ Finset.Ico (i + 1) N, (if list i > list k then 1 else 0) := by
  rw [Finset.sum_Ico_eq_sum_range]
  unfold sort_rank_u
  rw [show N - (i + 1) = N - i - 1 by omega]
  apply Finset.sum_congr rfl
  intro j _
  rw [show i + 1 + j = 1 + i + j by omega]

/-- `rank N list i` counts the indices `j < N` that strictly precede `i`
in the lexicographic key order. -/
lemma rank_eq_card (N : Nat) (list : Nat → α) {i : Nat} (hi : i < N) :
    rank N list i
      = ((Finset.range N).filter (fun j => keyLt list j i)).card := by
  rw [Finset.card_filter, Finset.range_eq_Ico,
    ← Finset.sum_Ico_consecutive _ (Nat.zero_le i) (le_of_lt hi),
    Finset.sum_eq_sum_Ico_succ_bot hi]
  have hii : (if keyLt list i i then (1 : Nat) else 0) = 0 := by
    simp [keyLt_irrefl list i]
  rw [hii, zero_add, rank, sort_rank_u_eq_Ico]
  congr 1
  · unfold sort_rank_l
    rw [Finset.range_eq_Ico]
    apply Finset.sum_congr rfl
    intro j hj
    have hji : j < i := (Finset.mem_Ico.mp hj).2
    apply if_congr _ rfl rfl
    constructor
    · intro h
      rcases lt_or_eq_of_le h with h | h
      · exact Or.inl h
      · exact Or.inr ⟨h, hji⟩
    · rintro (h | ⟨h, _⟩)
      · exact le_of_lt h
      · exact le_of_eq h
  · apply Finset.sum_congr rfl
    intro k hk
    have hik : i + 1 ≤ k := (Finset.mem_Ico.mp hk).1
    apply if_congr _ rfl rfl
    constructor
    · intro h
      exact Or.inl h
    · rintro (h | ⟨_, h⟩)
      · exact h
      · omega

/-- Strict monotonicity: a key-smaller index gets a smaller rank. -/
lemma rank_lt_rank {N : Nat} {list : Nat → α} {i j : Nat} (hi : i < N)
    (hj : j < N) (hij : keyLt list i j) : rank N list i < rank N list j := by
  rw [rank_eq_card N list hi, rank_eq_card N list hj]
  apply Finset.card_lt_card
  rw [Finset.ssubset_def]
  constructor
  · intro k hk
    simp only [Finset.mem_filter, Finset.mem_range] at hk ⊢
    exact ⟨hk.1, keyLt_trans hk.2 hij⟩
  · intro hsub
    have hmem : i ∈ (Finset.range N).filter (fun k => keyLt list k j) := by
      simp only [Finset.mem_filter, Finset.mem_range]
      exact ⟨hi, hij⟩
    have h2 := hsub hmem
    simp only [Finset.mem_filter] at h2
    exact keyLt_irrefl list i h2.2

/-- Every rank is a valid output position. -/
lemma rank_lt (N : Nat) (list : Nat → α) {i : Nat} (hi : i < N) :
    rank N list i < N := by
  rw [rank_eq_card N list hi]
  have hsub : (Finset.range N).filter (fun j => keyLt list j i)
      ⊆ (Finset.range N).erase i := by
    intro k hk
    simp only [Finset.mem_filter, Finset.mem_range] at hk
    rw [Finset.mem_erase]
    refine ⟨?_, Finset.mem_range.mpr hk.1⟩
    intro hke
    exact keyLt_irrefl list i (hke ▸ hk.2)
  calc ((Finset.range N).filter (fun j => keyLt list j i)).card
      ≤ ((Finset.range N).erase i).card := Finset.card_le_card hsub
    _ = N - 1 := by rw [Finset.card_erase_of_mem (Finset.mem_range.mpr hi),
        Finset.card_range]
    _ < N := by omega

/-- No two source indices share a destination. -/
lemma rank_injOn {N : Nat} {list : Nat → α} {i j : Nat} (hi : i < N)
    (hj : j < N) (h : rank N list i = rank N list j) : i = j := by
  by_contra hne
  rcases keyLt_total list hne with hk | hk
  · exact absurd h (ne_of_lt (rank_lt_rank hi hj hk))
  · exact absurd h.symm (ne_of_lt (rank_lt_rank hj hi hk))

/-- A self-map of `{0, ..., N-1}` that is injective there is onto it. -/
lemma image_range_eq {N : Nat} {g : Nat → Nat} (hb : ∀ i < N, g i < N)
    (hinj : ∀ i < N, ∀ j < N, g i = g j → i = j) :
    (Finset.range N).image g = Finset.range N := by
  apply Finset.eq_of_subset_of_card_le
  · intro d hd
    simp only [Finset.mem_image, Finset.mem_range] at hd ⊢
    obtain ⟨i, hi, rfl⟩ := hd
    exact hb i hi
  · rw [Finset.card_image_of_injOn, Finset.card_range]
    intro i hi j hj hgij
    exact hinj i (Finset.mem_range.mp hi) j (Finset.mem_range.mp hj) hgij

/-- Every output position is the rank of some input index. -/
lemma rank_surjOn (N : Nat) (list : Nat → α) {d : Nat} (hd : d < N) :
    ∃ i, i < N ∧ rank N list i = d := by
  have himg := image_range_eq (fun i hi => rank_lt N list hi)
    (fun i hi j hj h => rank_injOn hi hj h)
  have : d ∈ (Finset.range N).image (rank N list) := by
    rw [himg]
    exact Finset.mem_range.mpr hd
  simp only [Finset.mem_image, Finset.mem_range] at this
  obtain ⟨i, hi, hr⟩ := this
  exact ⟨i, hi, hr⟩

/-- The scatter fold never changes the length of the response. -/
lemma foldl_set_length (g : Nat → α) (r : Nat → Nat) (idxs : List Nat) :
    ∀ init : List α,
      (idxs.foldl (fun resp i => resp.set (r i) (g i)) init).length
        = init.length := by
  induction idxs with
  | nil => intro init; rfl
  | cons a rest ih =>
    intro init
    rw [List.foldl_cons, ih, List.length_set]

/-- Positions that no index of the fold targets keep their initial value. -/
lemma foldl_set_getElem?_not_mem (g : Nat → α) (r : Nat → Nat) (d : Nat)
    (idxs : List Nat) :
    ∀ init : List α, (∀ j ∈ idxs, r j ≠ d) →
      (idxs.foldl (fun resp i => resp.set (r i) (g i)) init)[d]?
        = init[d]? := by
  induction idxs with
  | nil => intro init _; rfl
  | cons a rest ih =>
    intro init hne
    rw [List.foldl_cons, ih _ (fun j hj => hne j (List.mem_cons_of_mem a hj)),
      List.getElem?_set_ne (hne a (List.mem_cons_self a rest))]

/-- After the scatter fold, the position targeted by `i` holds `g i`,
provided no other index of the fold targets the same position. -/
lemma foldl_set_getElem?_mem (g : Nat → α) (r : Nat → Nat) (i : Nat)
    (idxs : List Nat) :
    ∀ init : List α, i ∈ idxs → idxs.Nodup →
      (∀ j ∈ idxs, r j = r i → j = i) → r i < init.length →
      (idxs.foldl (fun resp i => resp.set (r i) (g i)) init)[r i]?
        = some (g i) := by
  induction idxs with
  | nil => intro init h; cases h
  | cons a rest ih =>
    intro init hmem hnd huniq hlen
    rw [List.foldl_cons]
    rcases List.mem_cons.mp hmem with rfl | hmem
    · have hnotmem : i ∉ rest := (List.nodup_cons.mp hnd).1
      have hne : ∀ j ∈ rest, r j ≠ r i := by
        intro j hj hrj
        have hji : j = i := huniq j (List.mem_cons_of_mem _ hj) hrj
        exact hnotmem (hji ▸ hj)
      rw [foldl_set_getElem?_not_mem g r _ rest _ hne]
      exact List.getElem?_set_eq_of_lt (g i) hlen
    · exact ih _ hmem (List.nodup_cons.mp hnd).2
        (fun j hj => huniq j (List.mem_cons_of_mem _ hj))
        (by rw [List.length_set]; exact hlen)

/-- The output of `sort` has length `N`. -/
lemma sort_length (N : Nat) (list : Nat → α) : (sort N list).length = N := by
  rw [sort, sort_impl, foldl_set_length, List.length_replicate]

/-- The position `rank N list i` of the output holds `list i`. -/
lemma sort_getElem?_rank (N : Nat) (list : Nat → α) {i : Nat} (hi : i < N) :
    (sort N list)[rank N list i]? = some (list i) := by
  rw [sort, sort_impl]
  apply foldl_set_getElem?_mem
  · exact List.mem_range.mpr hi
  · exact List.nodup_range N
  · intro j hj h
    exact rank_injOn (List.mem_range.mp hj) hi h
  · rw [List.length_replicate]
    exact rank_lt N list hi

/-- Every output position `d < N` holds the value of the unique input
index of rank `d`. -/
lemma sort_getElem? (N : Nat) (list : Nat → α) {d : Nat} (hd : d < N) :
    ∃ i, i < N ∧ rank N list i = d ∧ (sort N list)[d]? = some (list i) := by
  obtain ⟨i, hi, hr⟩ := rank_surjOn N list hd
  exact ⟨i, hi, hr, hr ▸ sort_getElem?_rank N list hi⟩

/-- A self-map of `{0, ..., N-1}` that is injective there maps
`List.range N` to a permutation of `List.range N`. -/
lemma map_range_perm {N : Nat} {g : Nat → Nat} (hb : ∀ i < N, g i < N)
    (hinj : ∀ i < N, ∀ j < N, g i = g j → i = j) :
    ((List.range N).map g).Perm (List.range N) := by
  apply List.perm_of_nodup_nodup_toFinset_eq
  · apply List.Nodup.map_on
    · intro x hx y hy hxy
      exact hinj x (List.mem_range.mp hx) y (List.mem_range.mp hy) hxy
    · exact List.nodup_range N
  · exact List.nodup_range N
  · have himg := image_range_eq hb hinj
    ext x
    simp only [List.mem_toFinset, List.mem_map, List.mem_range]
    constructor
    · rintro ⟨i, hi, rfl⟩
      have : g i ∈ Finset.range N := by
        rw [← himg]
        exact Finset.mem_image_of_mem g (Finset.mem_range.mpr hi)
      exact Finset.mem_range.mp this
    · intro hx
      have : x ∈ (Finset.range N).image g := by
        rw [himg]
        exact Finset.mem_range.mpr hx
      simp only [Finset.mem_image, Finset.mem_range] at this
      exact this

lemma rinv_spec (N : Nat) (list : Nat → α) {d : Nat} (hd : d < N) :
    rinv N list d < N ∧ rank N list (rinv N list d) = d := by
  obtain ⟨i, hi, hr⟩ := rank_surjOn N list hd
  unfold rinv
  have hex : (((List.range N).find? (fun i => rank N list i == d))).isSome := by
    rw [List.find?_isSome]
    exact ⟨i, List.mem_range.mpr hi, by simp [hr]⟩
  obtain ⟨a, ha⟩ := Option.isSome_iff_exists.mp hex
  rw [ha, Option.getD_some]
  have hmem := List.mem_of_find?_eq_some ha
  have hp := List.find?_some ha
  simp only [beq_iff_eq] at hp
  exact ⟨List.mem_range.mp hmem, hp⟩

/-- The output of `sort` written as an explicit map over positions. -/
lemma sort_eq_map_rinv (N : Nat) (list : Nat → α) :
    sort N list = (List.range N).map (fun d => list (rinv N list d)) := by
  apply List.ext_getElem?
  intro d
  by_cases hd : d < N
  · rw [List.getElem?_map, List.getElem?_range hd]
    obtain ⟨hlt, hr⟩ := rinv_spec N list hd
    have h := sort_getElem?_rank N list hlt
    rw [hr] at h
    rw [h]
    rfl
  · have h1 : (sort N list)[d]? = none := by
      apply List.getElem?_eq_none
      rw [sort_length]
      omega
    have h2 : ((List.range N).map (fun d => list (rinv N list d)))[d]? = none := by
      apply List.getElem?_eq_none
      rw [List.length_map, List.length_range]
      omega
    rw [h1, h2]

/-- `rinv` is itself a permutation of the index range. -/
lemma rinv_map_range_perm (N : Nat) (list : Nat → α) :
    ((List.range N).map (rinv N list)).Perm (List.range N) := by
  apply map_range_perm
  · intro d hd
    exact (rinv_spec N list hd).1
  · intro d1 h1 d2 h2 he
    have e1 := (rinv_spec N list h1).2
    have e2 := (rinv_spec N list h2).2
    rw [← e1, ← e2, he]

/-- Claim C1: for every `N` and every input, the sequence returned by
`sort<N>` is sorted non-decreasingly: every adjacent pair of output
positions `p, p+1` with `p+1 < N` satisfies `output[p] <= output[p+1]`. -/
theorem sort_sorted_adjacent (N : Nat) (list : Nat → α) :
    List.Chain' (· ≤ ·) (CTSort.sort N list) := by
  rw [List.chain'_iff_get]
  intro p hp
  rw [sort_length] at hp
  obtain ⟨i, hi, hri, hgi⟩ := sort_getElem? N list (show p < N by omega)
  obtain ⟨j, hj, hrj, hgj⟩ := sort_getElem? N list (show p + 1 < N by omega)
  obtain ⟨_, ei⟩ := List.getElem?_eq_some.mp hgi
  obtain ⟨_, ej⟩ := List.getElem?_eq_some.mp hgj
  simp only [List.get_eq_getElem]
  rw [ei, ej]
  by_contra hlt
  have hk : keyLt list j i := Or.inl (lt_of_not_le hlt)
  have := rank_lt_rank hj hi hk
  rw [hri, hrj] at this
  omega

/-- Claim C2: the output of `sort<N>` is an exact rearrangement of the
first `N` input elements: the two multisets coincide. -/
theorem sort_perm_input (N : Nat) (list : Nat → α) :
    (CTSort.sort N list).Perm ((List.range N).map list) := by
  rw [sort_eq_map_rinv]
  have h := (rinv_map_range_perm N list).map list
  rw [List.map_map] at h
  exact h

/-- Claim C3: the internal rank array is a permutation of
`{0, ..., N-1}`, for every input, duplicates included. -/
theorem rank_array_perm_range (N : Nat) (list : Nat → α) :
    ((List.range N).map (CTSort.rank N list)).Perm (List.range N) := by
  apply map_range_perm
  · intro i hi
    exact rank_lt N list hi
  · intro i hi j hj h
    exact rank_injOn hi hj h

/-- Claim C4: for every `i < N` the rank of `i` is the number of earlier
indices `j < i` with `list[i] >= list[j]` plus the number of later
indices `k` with `i < k < N` and `list[i] > list[k]`. -/
theorem rank_eq_counts (N : Nat) (list : Nat → α) {i : Nat} (hi : i < N) :
    CTSort.rank N list i
      = ((Finset.range i).filter (fun j => list i ≥ list j)).card
        + ((Finset.Ioo i N).filter (fun k => list i > list k)).card := by
  rw [rank]
  congr 1
  · rw [Finset.card_filter]
    rfl
  · rw [sort_rank_u_eq_Ico, Finset.card_filter, ← Nat.Ico_succ_left]

/-- Witness for C4 at `N = 3`, `list = [2, 2, 1]`, `i = 1`. -/
theorem rank_eq_counts_witness :
    (1 < 3) ∧
      CTSort.rank 3 (fun k => [2, 2, 1].getD k (0 : Int)) 1
        = ((Finset.range 1).filter
            (fun j => [2, 2, 1].getD 1 (0 : Int) ≥ [2, 2, 1].getD j (0 : Int))).card
          + ((Finset.Ioo 1 3).filter
            (fun k => [2, 2, 1].getD 1 (0 : Int) > [2, 2, 1].getD k (0 : Int))).card :=
  ⟨by decide, rank_eq_counts 3 (fun k => [2, 2, 1].getD k (0 : Int)) (by decide)⟩

/-- Claim C5: the output of `sort<N>` has length exactly `N` for every
`N ≥ 0`, and `N = 0` yields the empty sequence. -/
theorem sort_length_eq (N : Nat) (list : Nat → α) :
    (CTSort.sort N list).length = N ∧ CTSort.sort 0 list = [] :=
  ⟨sort_length N list, rfl⟩

/-- Claim C6: two positions `i < k` holding equal elements receive ranks
in the order of their indices: `rank[i] < rank[k]`. -/
theorem rank_lt_of_eq_elems (N : Nat) (list : Nat → α) {i k : Nat}
    (hik : i < k) (hk : k < N) (he : list i = list k) :
    CTSort.rank N list i < CTSort.rank N list k :=
  rank_lt_rank (lt_trans hik hk) hk (Or.inr ⟨he, hik⟩)

/-- Witness for C6 at `N = 3`, the all-equal input, `i = 0`, `k = 2`. -/
theorem rank_lt_of_eq_elems_witness :
    ((0 < 2) ∧ (2 < 3) ∧ (fun _ => (7 : Int)) 0 = (fun _ => (7 : Int)) 2) ∧
      CTSort.rank 3 (fun _ => (7 : Int)) 0 < CTSort.rank 3 (fun _ => (7 : Int)) 2 :=
  ⟨⟨by decide, by decide, rfl⟩,
    rank_lt_of_eq_elems 3 (fun _ => (7 : Int)) (by decide) (by decide) rfl⟩

/-- Claim C7: on an input already in non-decreasing order, `sort<N>`
returns the input itself (its first `N` elements, in order). -/
theorem sort_of_sorted (N : Nat) (list : Nat → α)
    (hs : ∀ i j, i ≤ j → j < N → list i ≤ list j) :
    CTSort.sort N list = (List.range N).map list := by
  have hrank : ∀ i, i < N → rank N list i = i := by
    intro i hi
    rw [rank]
    have hl : sort_rank_l list i = i := by
      unfold sort_rank_l
      rw [Finset.sum_congr rfl (fun j hj => if_pos
        (hs j i (le_of_lt (Finset.mem_range.mp hj)) hi))]
      simp
    have hu : sort_rank_u N list i = 0 := by
      unfold sort_rank_u
      apply Finset.sum_eq_zero
      intro j hj
      have hjlt : j < N - i - 1 := Finset.mem_range.mp hj
      rw [if_neg]
      exact not_lt.mpr (hs i (1 + i + j) (by omega) (by omega))
    rw [hl, hu]
    omega
  apply List.ext_getElem?
  intro d
  by_cases hd : d < N
  · have h := sort_getElem?_rank N list hd
    rw [hrank d hd] at h
    rw [h, List.getElem?_map, List.getElem?_range hd]
    rfl
  · have h1 : (sort N list)[d]? = none := by
      apply List.getElem?_eq_none
      rw [sort_length]
      omega
    have h2 : ((List.range N).map list)[d]? = none := by
      apply List.getElem?_eq_none
      rw [List.length_map, List.length_range]
      omega
    rw [h1, h2]

/-- Witness for C7 at `N = 3` and the identity input `0, 1, 2, ...`. -/
theorem sort_of_sorted_witness :
    (∀ i j, i ≤ j → j < 3 → (fun k : Nat => k) i ≤ (fun k : Nat => k) j) ∧
      CTSort.sort 3 (fun k : Nat => k) = (List.range 3).map (fun k : Nat => k) :=
  ⟨fun _ _ h _ => h, sort_of_sorted 3 (fun k : Nat => k) (fun _ _ h _ => h)⟩

/-- Claim C10: `sort<N>` depends only on the first `N` input elements:
inputs agreeing at indices `0..N-1` produce equal outputs. -/
theorem sort_congr_of_agree (N : Nat) (f g : Nat → α)
    (h : ∀ i, i < N → f i = g i) : CTSort.sort N f = CTSort.sort N g := by
  have hrank : ∀ i, i < N → rank N f i = rank N g i := by
    intro i hi
    rw [rank, rank]
    congr 1
    · unfold sort_rank_l
      apply Finset.sum_congr rfl
      intro j hj
      rw [h i hi, h j (lt_trans (Finset.mem_range.mp hj) hi)]
    · unfold sort_rank_u
      apply Finset.sum_congr rfl
      intro j hj
      have hjlt : j < N - i - 1 := Finset.mem_range.mp hj
      rw [h i hi, h (1 + i + j) (by omega)]
  rw [sort, sort, sort_impl, sort_impl]
  have aux : ∀ (js : List Nat), (∀ j ∈ js, j < N) → ∀ (init : List α),
      js.foldl (fun resp i => resp.set (rank N f i) (f i)) init
        = js.foldl (fun resp i => resp.set (rank N g i) (g i)) init := by
    intro js
    induction js with
    | nil => intro _ init; rfl
    | cons a rest ih =>
      intro hjs init
      rw [List.foldl_cons, List.foldl_cons, hrank a (hjs a (List.mem_cons_self a rest)),
        h a (hjs a (List.mem_cons_self a rest))]
      exact ih (fun j hj => hjs j (List.mem_cons_of_mem a hj)) _
  exact aux (List.range N) (fun j hj => List.mem_range.mp hj) _

/-- Witness for C10 at `N = 2` with inputs differing only from index 2 on. -/
theorem sort_congr_of_agree_witness :
    (∀ i, i < 2 → (fun k => if k < 2 then (k : Int) else 5) i = (fun k => (k : Int)) i) ∧
      CTSort.sort 2 (fun k => if k < 2 then (k : Int) else 5)
        = CTSort.sort 2 (fun k => (k : Int)) :=
  ⟨by intro i hi; simp [hi], sort_congr_of_agree 2 _ _ (by intro i hi; simp [hi])⟩

/-- In-bounds `Option` access agrees with defaulted access. -/
lemma getElem?_eq_some_getD {xs : List α} {j : Nat} (h : j < xs.length) :
    xs[j]? = some (xs.getD j default) := by
  rw [List.getElem?_eq_getElem h, List.getD_eq_getElem?_getD,
    List.getElem?_eq_getElem h]
  rfl

/-- The `Option`-checked lower pass succeeds and agrees with the pure
model when the pivot index is in bounds. -/
lemma sort_rank_lo_eq (xs : List α) {i : Nat} (hi : i < xs.length) :
    sort_rank_lo xs i
      = some (sort_rank_l (fun k => xs.getD k default) i) := by
  have aux : ∀ (m : Nat), m ≤ i → ∀ (a : Nat),
      (List.range m).foldl
        (fun (acc : Option Nat) (j : Nat) =>
          acc.bind (fun b => (xs[i]?).bind (fun x => (xs[j]?).bind (fun y =>
            some (b + if x ≥ y then 1 else 0)))))
        (some a)
      = some (a + ∑ j ∈ Finset.range m,
          (if xs.getD i default ≥ xs.getD j default then 1 else 0)) := by
    intro m
    induction m with
    | zero => intro _ a; simp
    | succ m ih =>
      intro hm a
      rw [List.range_succ, List.foldl_append, ih (by omega) a]
      simp only [List.foldl_cons, List.foldl_nil]
      rw [getElem?_eq_some_getD hi,
        getElem?_eq_some_getD (show m < xs.length by omega)]
      simp only [Option.some_bind]
      rw [Finset.sum_range_succ]
      congr 1
      omega
  rw [sort_rank_lo, aux i le_rfl 0, Nat.zero_add]
  rfl

/-- The `Option`-checked upper pass succeeds and agrees with the pure
model when all of the first `N` indices are in bounds. -/
lemma sort_rank_uo_eq (N : Nat) (xs : List α) {i : Nat} (hi : i < xs.length)
    (hN : N ≤ xs.length) :
    sort_rank_uo N xs i
      = some (sort_rank_u N (fun k => xs.getD k default) i) := by
  have aux : ∀ (m : Nat), m ≤ N - i - 1 → ∀ (a : Nat),
      (List.range m).foldl
        (fun (acc : Option Nat) (j : Nat) =>
          acc.bind (fun b => (xs[i]?).bind (fun x => (xs[1 + i + j]?).bind (fun y =>
            some (b + if x > y then 1 else 0)))))
        (some a)
      = some (a + ∑ j ∈ Finset.range m,
          (if xs.getD i default > xs.getD (1 + i + j) default then 1 else 0)) := by
    intro m
    induction m with
    | zero => intro _ a; simp
    | succ m ih =>
      intro hm a
      rw [List.range_succ, List.foldl_append, ih (by omega) a]
      simp only [List.foldl_cons, List.foldl_nil]
      rw [getElem?_eq_some_getD hi,
        getElem?_eq_some_getD (show 1 + i + m < xs.length by omega)]
      simp only [Option.some_bind]
      rw [Finset.sum_range_succ]
      congr 1
      omega
  rw [sort_rank_uo, aux (N - i - 1) le_rfl 0, Nat.zero_add]
  rfl

/-- The `Option`-checked rank succeeds and agrees with the pure model. -/
lemma ranko_eq (N : Nat) (xs : List α) {i : Nat} (hi : i < N)
    (hN : N ≤ xs.length) :
    ranko N xs i = some (rank N (fun k => xs.getD k default) i) := by
  have hil : i < xs.length := lt_of_lt_of_le hi hN
  rw [ranko, sort_rank_lo_eq xs hil, sort_rank_uo_eq N xs hil hN]
  rfl

/-- The `Option`-checked scatter fold never takes the `none` branch and
agrees with the pure model, as long as every folded index is below `N`
and the response has length `N`. -/
lemma sort_implo_fold (N : Nat) (xs : List α) (hN : N ≤ xs.length) :
    ∀ (js : List Nat), (∀ j ∈ js, j < N) → ∀ (resp : List α),
      resp.length = N →
      js.foldl
        (fun (acc : Option (List α)) (i : Nat) =>
          acc.bind (fun resp => (ranko N xs i).bind (fun r => (xs[i]?).bind (fun v =>
            if r < resp.length then some (resp.set r v) else none))))
        (some resp)
      = some (js.foldl
          (fun resp i => resp.set (rank N (fun k => xs.getD k default) i)
            ((fun k => xs.getD k default) i)) resp) := by
  intro js
  induction js with
  | nil => intro _ resp _; rfl
  | cons a rest ih =>
    intro hjs resp hlen
    have ha : a < N := hjs a (List.mem_cons_self a rest)
    rw [List.foldl_cons, List.foldl_cons, ranko_eq N xs ha hN,
      getElem?_eq_some_getD (lt_of_lt_of_le ha hN)]
    simp only [Option.some_bind]
    have hrlt : rank N (fun k => xs.getD k default) a < resp.length := by
      rw [hlen]
      exact rank_lt N _ ha
    rw [if_pos hrlt]
    exact ih (fun j hj => hjs j (List.mem_cons_of_mem a hj)) _
      (by rw [List.length_set, hlen])

/-- Claim C8: the scatter writes touch only the response component of
the state; the input sequence is returned unchanged, and the response
ends up equal to the pure result of `sort`. -/
theorem sort_st_spec (N : Nat) (xs : List α) :
    (CTSort.sort_st N xs).1 = xs
      ∧ (CTSort.sort_st N xs).2 = CTSort.sort N (fun k => xs.getD k default) := by
  have key : ∀ (js : List Nat) (resp : List α),
      js.foldl
        (fun st i =>
          (st.1, st.2.set (rank N (fun k => st.1.getD k default) i)
            (st.1.getD i default)))
        (xs, resp)
      = (xs, js.foldl
          (fun resp i => resp.set (rank N (fun k => xs.getD k default) i)
            ((fun k => xs.getD k default) i)) resp) := by
    intro js
    induction js with
    | nil => intro resp; rfl
    | cons a rest ih =>
      intro resp
      rw [List.foldl_cons, List.foldl_cons]
      exact ih _
  refine ⟨?_, ?_⟩
  · rw [sort_st, key]
  · rw [sort_st, key, sort, sort_impl]

/-- Claim C9: whenever the input list has length at least `N`, the
bounds-checked model of `sort<N>` performs no out-of-bounds access: it
returns `some` of exactly the pure result. -/
theorem sort_implo_eq_some (N : Nat) (xs : List α) (hN : N ≤ xs.length) :
    CTSort.sort_implo N xs
      = some (CTSort.sort N (fun k => xs.getD k default)) := by
  rw [sort_implo, sort, sort_impl]
  exact sort_implo_fold N xs hN (List.range N)
    (fun j hj => List.mem_range.mp hj) (List.replicate N default) (by simp)

/-- Witness for C9 at `N = 3` and the input `[2, 1, 3]`. -/
theorem sort_implo_eq_some_witness :
    (3 ≤ ([2, 1, 3] : List Int).length) ∧
      CTSort.sort_implo 3 ([2, 1, 3] : List Int)
        = some (CTSort.sort 3 (fun k => ([2, 1, 3] : List Int).getD k default)) :=
  ⟨by decide, sort_implo_eq_some 3 ([2, 1, 3] : List Int) (by decide)⟩

end CTSort
